import Mathlib

/-!
Verification of the `tablesearch` jQuery plugin (`src/tablesearch.js`).

The plugin's state is embedded shallowly:

* strings are lists of characters (`Str`); `$.trim` and `toLowerCase` are
  modelled on the ASCII fragment (`Char.toLower` lowers exactly the basic
  latin letters, which is what JS `toLowerCase` does on ASCII input);
* the table is abstracted to the rows selected by `rowSelector`, each row
  being the list of text contents of the cells selected by `columnSelector`;
* each configurable callback is represented by whether it is callable
  (`typeof f === 'function'`); callback invocations are recorded as an
  event trace in invocation order;
* the three tracking arrays `matchCells` / `matchRows` / `noMatchRows`
  are explicit lists, mutated exactly as the source mutates them.
-/

namespace TableSearch

/-- Strings as lists of characters. -/
abbrev Str := List Char

/-- JS `toLowerCase` on the ASCII fragment. -/
def lcStr (s : Str) : Str := s.map Char.toLower

/-- Whitespace stripped by `$.trim` (ASCII fragment). -/
def isWs (c : Char) : Bool := c = ' ' || c = '\t' || c = '\n' || c = '\r'

/-- Model of `$.trim`: strip leading and trailing whitespace. -/
def trimStr (s : Str) : Str :=
  ((s.dropWhile isWs).reverse.dropWhile isWs).reverse

/-- Exact prefix test on character lists. -/
def leadEq : Str → Str → Bool
  | [], _ => true
  | _ :: _, [] => false
  | p :: ps, c :: cs => p == c && leadEq ps cs

/-- JS `s.indexOf(q) > -1`: `q` occurs as a contiguous substring of `s`. -/
def containsSub (q : Str) : Str → Bool
  | [] => leadEq q []
  | c :: t => leadEq q (c :: t) || containsSub q t

/-- Which configured callbacks are callable (`typeof f === 'function'`).
Field names follow the `config` object of the source. -/
structure Config where
  onMatchCell : Bool
  onMatchRow : Bool
  onNoMatchRow : Bool
  resetCell : Bool
  resetMatchRow : Bool
  resetNoMatchRow : Bool
  onStart : Bool
  onCompleted : Bool
  resetTable : Bool
deriving DecidableEq

/-- The default `config`: every callback is a function except
`onNoMatchRow` and `resetNoMatchRow`, which are `null`. -/
def defaultConfig : Config :=
  ⟨true, true, false, true, true, false, true, true, true⟩

/-- The three tracking arrays.  Cells are identified by
(row index, cell index within the row's searchable cells); rows by index. -/
structure TSState where
  matchCells : List (Nat × Nat)
  matchRows : List Nat
  noMatchRows : List Nat
deriving DecidableEq

/-- The arrays as they are initialised: all empty. -/
def emptyState : TSState := ⟨[], [], []⟩

/-- One observable callback invocation. -/
inductive Event where
  | startEv : Event
  | matchCellEv (row cell : Nat) (q : Str) : Event
  | matchRowEv (row : Nat) : Event
  | noMatchRowEv (row : Nat) : Event
  | completedEv : Event
  | resetCellEv (row cell : Nat) : Event
  | resetMatchRowEv (row : Nat) : Event
  | resetNoMatchRowEv (row : Nat) : Event
  | resetTableEv : Event
deriving DecidableEq

/-- Model of `doReset(func, arr)`: when `func` is callable, pop elements and invoke
`func` on each until the array is empty.  When it is not callable the loop
is skipped and only the local rebinding `arr = []` happens, which does not
affect the caller's array.  Returns (elements handed to the callback, in
pop i.e. reverse-insertion order; the array as the caller sees it after). -/
def doReset {α : Type} (callable : Bool) (arr : List α) : List α × List α :=
  if callable then (arr.reverse, []) else ([], arr)

/-- Model of `reset()`: three `doReset` calls, then the unguarded
`config.resetTable(self)` call.  The final `Bool` is `true` when a
TypeError is raised because `resetTable` is not callable. -/
def reset (cfg : Config) (st : TSState) : TSState × List Event × Bool :=
  let rc := doReset cfg.resetCell st.matchCells
  let rr := doReset cfg.resetMatchRow st.matchRows
  let rn := doReset cfg.resetNoMatchRow st.noMatchRows
  let evs := rc.1.map (fun p => Event.resetCellEv p.1 p.2)
      ++ rr.1.map Event.resetMatchRowEv ++ rn.1.map Event.resetNoMatchRowEv
  if cfg.resetTable then
    (⟨rc.2, rr.2, rn.2⟩, evs ++ [Event.resetTableEv], false)
  else
    (⟨rc.2, rr.2, rn.2⟩, evs, true)

/-- The rows selected by `rowSelector`; each row is the list of text
contents of its cells selected by `columnSelector`. -/
abbrev Table := List (List Str)

/-- Model of `cells.text()`: the concatenated text of the selected cells. -/
def cellsText (row : List Str) : Str := row.flatten

/-- What one iteration of the row loop contributes: pushes onto the three
arrays and callback invocations. -/
structure StepOut where
  cells : List (Nat × Nat)
  rows : List Nat
  noRows : List Nat
  evs : List Event
deriving DecidableEq

def stepApp (x y : StepOut) : StepOut :=
  ⟨x.cells ++ y.cells, x.rows ++ y.rows, x.noRows ++ y.noRows, x.evs ++ y.evs⟩

/-- The body of the `.each` loop of `searchFor` for row `i`: if the
concatenated lowercased cell text contains `q`, push and call back every
cell of the row (guarded by `onMatchCell`) then the row (guarded by
`onMatchRow`); otherwise push and call back the row guarded by
`onNoMatchRow`. -/
def rowStep (cfg : Config) (q : Str) (i : Nat) (row : List Str) : StepOut :=
  if containsSub q (lcStr (cellsText row)) then
    let cellPart : List (Nat × Nat) :=
      if cfg.onMatchCell then (List.range row.length).map (fun j => (i, j)) else []
    let cellEvs : List Event :=
      if cfg.onMatchCell then
        (List.range row.length).map (fun j => Event.matchCellEv i j q)
      else []
    let rowPart : List Nat := if cfg.onMatchRow then [i] else []
    let rowEvs : List Event := if cfg.onMatchRow then [Event.matchRowEv i] else []
    ⟨cellPart, rowPart, [], cellEvs ++ rowEvs⟩
  else
    if cfg.onNoMatchRow then ⟨[], [], [i], [Event.noMatchRowEv i]⟩
    else ⟨[], [], [], []⟩

/-- Row indexing, as `.each` sees the rows in document order. -/
def enumF {α : Type} : Nat → List α → List (Nat × α)
  | _, [] => []
  | n, a :: t => (n, a) :: enumF (n + 1) t

/-- The whole row loop. -/
def passOut (cfg : Config) (q : Str) : List (Nat × List Str) → StepOut
  | [] => ⟨[], [], [], []⟩
  | (i, r) :: t => stepApp (rowStep cfg q i r) (passOut cfg q t)

/-- Model of `searchFor(query)`: unconditional `reset()`, normalise the query, return
early when it is empty, otherwise `onStart`, the row loop, `onCompleted`.
Returns the tracking state, the event trace (reset events first) and
whether a TypeError was raised (only possible inside `reset`). -/
def searchFor (cfg : Config) (table : Table) (st : TSState) (query : Str) :
    TSState × List Event × Bool :=
  let r0 := reset cfg st
  if r0.2.2 then r0
  else
    let q := lcStr (trimStr query)
    if q = [] then r0
    else
      let startEvs : List Event := if cfg.onStart then [Event.startEv] else []
      let p := passOut cfg q (enumF 0 table)
      let endEvs : List Event := if cfg.onCompleted then [Event.completedEv] else []
      (⟨r0.1.matchCells ++ p.cells, r0.1.matchRows ++ p.rows,
          r0.1.noMatchRows ++ p.noRows⟩,
        r0.2.1 ++ startEvs ++ p.evs ++ endEvs, false)

/-- Annotation state produced by the default callbacks: the table's
`searching` and `results` classes and the rows carrying the match class. -/
structure Ann where
  searching : Bool
  results : Bool
  marked : List Nat
deriving DecidableEq

/-- Effect of one callback invocation under the default configuration
(`addClass` / `removeClass` semantics). -/
def applyEvent (a : Ann) : Event → Ann
  | .startEv => { a with searching := true }
  | .completedEv => { a with searching := false, results := true }
  | .resetTableEv => { a with results := false }
  | .matchRowEv i => { a with marked := if i ∈ a.marked then a.marked else i :: a.marked }
  | .resetMatchRowEv i => { a with marked := a.marked.filter (fun j => j ≠ i) }
  | _ => a

def applyEvents (a : Ann) (evs : List Event) : Ann := evs.foldl applyEvent a

/-- Configuration used in several theorems: default callbacks plus a
callable `onNoMatchRow` (its reset counterpart stays `null`). -/
def cfgNoMatchOnly : Config := { defaultConfig with onNoMatchRow := true }

/-- Configuration with a non-callable `resetTable`. -/
def cfgNoResetTable : Config := { defaultConfig with resetTable := false }

/-- Configuration with no callable callback except `resetTable`. -/
def cfgNone : Config :=
  ⟨false, false, false, false, false, false, false, false, true⟩

/-! Section: The highlight routine, `highlightText`

`highlightText(element, text)` first removes all `<mark>` / `</mark>` tags
from the element's HTML (`html.replace(/<\/?mark>/gi, "")`) and then, when
`text` is non-empty, runs

    newHtml.replace(new RegExp(
        '(^|>)([^"<>]*)(' + text + ')([^"<>]*)(<|$)', "gi"),
      '$1$2<mark>$3</mark>$4$5')

The JS regex engine is embedded for exactly these two patterns, with the
query taken as a literal: global left-to-right scanning, alternation trying
the left branch first, greedy quantifiers with backtracking. -/

/-- The literal `<mark>` tag inserted by the replacement. -/
def openT : Str := '<' :: 'm' :: 'a' :: 'r' :: 'k' :: '>' :: []

/-- The literal `</mark>` tag inserted by the replacement. -/
def closeT : Str := '<' :: '/' :: 'm' :: 'a' :: 'r' :: 'k' :: '>' :: []

/-- Case-insensitive character comparison (the regex `i` flag, ASCII). -/
def ciEq (x y : Char) : Bool := x.toLower == y.toLower

/-- Case-insensitively, `p` is a prefix of `s`. -/
def ciPre : Str → Str → Bool
  | [], _ => true
  | _ :: _, [] => false
  | p :: ps, c :: cs => ciEq p c && ciPre ps cs

/-- One global pass of `html.replace(/<\/?mark>/gi, "")`.  The optional `/`
is greedy, so `</mark>` is preferred over `<mark>` at the same position.
The fuel argument only makes the recursion structural; the wrapper supplies
fuel equal to the string length, which is enough because every step consumes
at least one character. -/
def stripGo : Nat → Str → Str
  | 0, s => s
  | _ + 1, [] => []
  | f + 1, c :: t =>
    if ciPre closeT (c :: t) then stripGo f ((c :: t).drop 7)
    else if ciPre openT (c :: t) then stripGo f ((c :: t).drop 6)
    else c :: stripGo f t

/-- Model of `html.replace(/<\/?mark>/gi, "")`. -/
def stripMarks (s : Str) : Str := stripGo s.length s

/-- Characters allowed in the pattern's `[^"<>]` class. -/
def plainC (c : Char) : Bool := !(c == '"' || c == '<' || c == '>')

/-- Split off the maximal run of `[^"<>]` characters. -/
def plainRun : Str → Str × Str
  | [] => ([], [])
  | c :: t =>
    if plainC c then
      let p := plainRun t
      (c :: p.1, p.2)
    else ([], c :: t)

/-- Groups 4 and 5 of the pattern, `([^"<>]*)(<|$)`: the greedy run, then
either a literal `<` (consumed) or the end of the subject; `none` when the
character after the run is `"` or `>` (backtracking the run cannot help,
because a shorter run would end on a `[^"<>]` character, which `(<|$)`
cannot match either). -/
def postChk (s : Str) : Option (Str × Str) :=
  match (plainRun s).2 with
  | [] => some ((plainRun s).1, [])
  | c :: _ => if c = '<' then some ((plainRun s).1, ['<']) else none

/-- Groups 2 to 5 of one match attempt: group 2 (`pre`), the query
occurrence (`occ`), group 4 (`post`) and group 5 (`g5`, `[]` or `['<']`). -/
structure HMatch where
  pre : Str
  occ : Str
  post : Str
  g5 : Str
deriving DecidableEq

/-- Number of subject characters the groups 2-5 consumed. -/
def lenM (m : HMatch) : Nat :=
  m.pre.length + m.occ.length + m.post.length + m.g5.length

/-- Match attempt with group 2 of length exactly `k`. -/
def att (q t : Str) (k : Nat) : Option HMatch :=
  if ciPre q (t.drop k) then
    match postChk (t.drop (k + q.length)) with
    | some bg => some ⟨t.take k, (t.drop k).take q.length, bg.1, bg.2⟩
    | none => none
  else none

/-- Greedy group 2 with backtracking: try the largest length first. -/
def tryK (q t : Str) : Nat → Option HMatch
  | 0 => att q t 0
  | k + 1 =>
    match att q t (k + 1) with
    | some m => some m
    | none => tryK q t k

/-- Match of groups 2-5 against `t` (the subject right after group 1):
group 2 ranges over the maximal `[^"<>]` run, longest first. -/
def matchAt (q t : Str) : Option HMatch := tryK q t (plainRun t).1.length

/-- The global scan at positions after the subject's start, where group 1
can only be a literal `>`.  On a match the replacement
`$1$2<mark>$3</mark>$4$5` is emitted and scanning resumes after the match;
otherwise the scan advances one character.  Fuel decreases by one per step;
a match consumes at least the `>` of group 1, so fuel = length suffices. -/
def wrapGo (q : Str) : Nat → Str → Str
  | 0, s => s
  | _ + 1, [] => []
  | f + 1, c :: t =>
    if c = '>' then
      match matchAt q t with
      | some m =>
        '>' :: (m.pre ++ openT ++ m.occ ++ closeT ++ m.post ++ m.g5
          ++ wrapGo q f (t.drop (lenM m)))
      | none => c :: wrapGo q f t
    else c :: wrapGo q f t

/-- The whole replacement pass: first the `^`-anchored alternative of group
1 at position 0, then the `>`-anchored scan. -/
def hlWrap (q s : Str) : Str :=
  match matchAt q s with
  | some m =>
    m.pre ++ openT ++ m.occ ++ closeT ++ m.post ++ m.g5
      ++ wrapGo q s.length (s.drop (lenM m))
  | none => wrapGo q s.length s

/-- Model of `highlightText(element, text)`: strip all existing mark tags, then,
when the query text is non-empty, wrap occurrences. -/
def highlightText (html text : Str) : Str :=
  let newHtml := stripMarks html
  if text = [] then newHtml else hlWrap text newHtml

/-- A mark tag (either kind, case-insensitively) occurs at the head. -/
def tagHead (s : Str) : Bool := ciPre closeT s || ciPre openT s

/-- No mark tag occurs anywhere in `s`. -/
def TagFree (s : Str) : Prop := ∀ i : Nat, tagHead (s.drop i) = false

/-- Executable check for `TagFree`. -/
def tagFreeB : Str → Bool
  | [] => true
  | c :: t => !tagHead (c :: t) && tagFreeB t

/-- Largest offset `j ≤ k` at which `q` matches case-insensitively. -/
def lastOccGo (q s : Str) : Nat → Option Nat
  | 0 => if ciPre q s then some 0 else none
  | k + 1 => if ciPre q (s.drop (k + 1)) then some (k + 1) else lastOccGo q s k

/-- Offset of the last case-insensitive occurrence of `q` in `s`. -/
def lastOcc (q s : Str) : Option Nat := lastOccGo q s s.length

/-! Section: Basic lemmas about `reset` and `searchFor` -/

lemma applyEvents_append (a : Ann) (l₁ l₂ : List Event) :
    applyEvents a (l₁ ++ l₂) = applyEvents (applyEvents a l₁) l₂ := by
  simp [applyEvents, List.foldl_append]

lemma reset_raised (cfg : Config) (st : TSState) :
    (reset cfg st).2.2 = (!cfg.resetTable) := by
  unfold reset
  cases h : cfg.resetTable <;> simp [h]

lemma reset_emptyState (cfg : Config) : (reset cfg emptyState).1 = emptyState := by
  unfold reset doReset emptyState
  cases h1 : cfg.resetCell <;> cases h2 : cfg.resetMatchRow <;>
    cases h3 : cfg.resetNoMatchRow <;> cases h4 : cfg.resetTable <;> simp

lemma mem_reset_events {cfg : Config} {st : TSState} {e : Event}
    (he : e ∈ (reset cfg st).2.1) :
    (∃ i j, e = .resetCellEv i j) ∨ (∃ i, e = .resetMatchRowEv i) ∨
    (∃ i, e = .resetNoMatchRowEv i) ∨ e = .resetTableEv := by
  unfold reset at he
  cases h4 : cfg.resetTable <;> simp [h4, List.mem_append, List.mem_map] at he <;>
    aesop

lemma searchFor_of_searching (cfg : Config) (table : Table) (st : TSState)
    (query : Str) (hrt : cfg.resetTable = true)
    (hq : lcStr (trimStr query) ≠ []) :
    searchFor cfg table st query =
      (⟨(reset cfg st).1.matchCells
          ++ (passOut cfg (lcStr (trimStr query)) (enumF 0 table)).cells,
        (reset cfg st).1.matchRows
          ++ (passOut cfg (lcStr (trimStr query)) (enumF 0 table)).rows,
        (reset cfg st).1.noMatchRows
          ++ (passOut cfg (lcStr (trimStr query)) (enumF 0 table)).noRows⟩,
       (reset cfg st).2.1 ++ (if cfg.onStart then [Event.startEv] else [])
          ++ (passOut cfg (lcStr (trimStr query)) (enumF 0 table)).evs
          ++ (if cfg.onCompleted then [Event.completedEv] else []),
       false) := by
  have h1 : (reset cfg st).2.2 = false := by rw [reset_raised, hrt]; rfl
  unfold searchFor
  simp [h1, hq]

lemma searchFor_early (cfg : Config) (table : Table) (st : TSState) (query : Str)
    (h : (reset cfg st).2.2 = true ∨ lcStr (trimStr query) = []) :
    searchFor cfg table st query = reset cfg st := by
  unfold searchFor
  rcases h with h | h
  · simp [h]
  · simp only [h]
    split
    · rfl
    · simp

lemma resetTable_true_of_not_raised {cfg : Config} {st : TSState}
    (h : ¬(reset cfg st).2.2 = true) : cfg.resetTable = true := by
  rw [reset_raised] at h
  cases hrt : cfg.resetTable
  · rw [hrt] at h; simp at h
  · rfl

/-! Section: Membership lemmas for the row loop -/

lemma rowStep_rows_mem {cfg : Config} {q : Str} {i : Nat} {r : List Str} {a : Nat} :
    a ∈ (rowStep cfg q i r).rows ↔
      (cfg.onMatchRow = true ∧ containsSub q (lcStr (cellsText r)) = true ∧ a = i) := by
  unfold rowStep
  cases h : containsSub q (lcStr (cellsText r)) <;>
    cases h2 : cfg.onMatchRow <;> cases h3 : cfg.onNoMatchRow <;>
    simp [h, h2, h3]

lemma rowStep_noRows_mem {cfg : Config} {q : Str} {i : Nat} {r : List Str} {a : Nat} :
    a ∈ (rowStep cfg q i r).noRows ↔
      (cfg.onNoMatchRow = true ∧ containsSub q (lcStr (cellsText r)) = false ∧ a = i) := by
  unfold rowStep
  cases h : containsSub q (lcStr (cellsText r)) <;>
    cases h2 : cfg.onMatchRow <;> cases h3 : cfg.onNoMatchRow <;>
    cases h4 : cfg.onMatchCell <;> simp [h, h2, h3, h4]

lemma rowStep_cells_mem {cfg : Config} {q : Str} {i : Nat} {r : List Str}
    {a b : Nat} :
    (a, b) ∈ (rowStep cfg q i r).cells ↔
      (cfg.onMatchCell = true ∧ containsSub q (lcStr (cellsText r)) = true ∧
        a = i ∧ b < r.length) := by
  unfold rowStep
  cases h : containsSub q (lcStr (cellsText r)) <;>
    cases h2 : cfg.onMatchCell <;> cases h3 : cfg.onNoMatchRow <;>
    simp [h, h2, h3, List.mem_map, List.mem_range] <;> tauto

lemma rowStep_matchCellEv_mem {cfg : Config} {q : Str} {i : Nat} {r : List Str}
    {a b : Nat} {p : Str} :
    Event.matchCellEv a b p ∈ (rowStep cfg q i r).evs ↔
      (cfg.onMatchCell = true ∧ containsSub q (lcStr (cellsText r)) = true ∧
        a = i ∧ b < r.length ∧ p = q) := by
  unfold rowStep
  cases h : containsSub q (lcStr (cellsText r)) <;>
    cases h2 : cfg.onMatchCell <;> cases h3 : cfg.onNoMatchRow <;>
    cases h4 : cfg.onMatchRow <;>
    simp [h, h2, h3, h4, List.mem_append, List.mem_map, List.mem_range] <;>
    aesop

lemma passOut_rows_mem {cfg : Config} {q : Str} {l : List (Nat × List Str)} {a : Nat} :
    a ∈ (passOut cfg q l).rows ↔ ∃ p ∈ l, a ∈ (rowStep cfg q p.1 p.2).rows := by
  induction l with
  | nil => simp [passOut]
  | cons hd tl ih =>
    obtain ⟨i, r⟩ := hd
    simp [passOut, stepApp, List.mem_append, ih]

lemma passOut_noRows_mem {cfg : Config} {q : Str} {l : List (Nat × List Str)} {a : Nat} :
    a ∈ (passOut cfg q l).noRows ↔ ∃ p ∈ l, a ∈ (rowStep cfg q p.1 p.2).noRows := by
  induction l with
  | nil => simp [passOut]
  | cons hd tl ih =>
    obtain ⟨i, r⟩ := hd
    simp [passOut, stepApp, List.mem_append, ih]

lemma passOut_cells_mem {cfg : Config} {q : Str} {l : List (Nat × List Str)}
    {x : Nat × Nat} :
    x ∈ (passOut cfg q l).cells ↔ ∃ p ∈ l, x ∈ (rowStep cfg q p.1 p.2).cells := by
  induction l with
  | nil => simp [passOut]
  | cons hd tl ih =>
    obtain ⟨i, r⟩ := hd
    simp [passOut, stepApp, List.mem_append, ih]

lemma passOut_evs_mem {cfg : Config} {q : Str} {l : List (Nat × List Str)}
    {e : Event} :
    e ∈ (passOut cfg q l).evs ↔ ∃ p ∈ l, e ∈ (rowStep cfg q p.1 p.2).evs := by
  induction l with
  | nil => simp [passOut]
  | cons hd tl ih =>
    obtain ⟨i, r⟩ := hd
    simp [passOut, stepApp, List.mem_append, ih]

lemma mem_enumF {α : Type} {l : List α} :
    ∀ {n i : Nat} {x : α}, (i, x) ∈ enumF n l ↔ ∃ k, i = n + k ∧ l.get? k = some x := by
  induction l with
  | nil => intro n i x; simp [enumF]
  | cons hd tl ih =>
    intro n i x
    simp only [enumF, List.mem_cons, ih]
    constructor
    · rintro (h | ⟨k, rfl, hk⟩)
      · exact ⟨0, by simp [Prod.ext_iff] at h; exact ⟨by omega, by simp [h.2]⟩⟩
      · exact ⟨k + 1, by omega, by simpa using hk⟩
    · rintro ⟨k, rfl, hk⟩
      cases k with
      | zero => left; simp at hk; simp [hk]
      | succ k => right; exact ⟨k, by omega, by simpa using hk⟩

/-! Section: Lemmas about case-insensitive matching and mark tags -/

lemma ciPre_length {q s : Str} (h : ciPre q s = true) : q.length ≤ s.length := by
  induction q generalizing s with
  | nil => simp
  | cons p ps ih =>
    cases s with
    | nil => simp [ciPre] at h
    | cons c cs =>
      simp only [ciPre, Bool.and_eq_true] at h
      simpa using ih h.2

lemma ciPre_append {q s : Str} (h : ciPre q s = true) (r : Str) :
    ciPre q (s ++ r) = true := by
  induction q generalizing s with
  | nil => rfl
  | cons p ps ih =>
    cases s with
    | nil => simp [ciPre] at h
    | cons c cs =>
      simp only [ciPre, Bool.and_eq_true, List.cons_append] at h ⊢
      exact ⟨h.1, ih h.2⟩

lemma ciPre_of_append {q x y : Str} (h : ciPre q (x ++ y) = true)
    (hl : q.length ≤ x.length) : ciPre q x = true := by
  induction q generalizing x with
  | nil => rfl
  | cons p ps ih =>
    cases x with
    | nil => simp at hl
    | cons c cs =>
      simp only [List.cons_append, ciPre, Bool.and_eq_true] at h ⊢
      exact ⟨h.1, ih h.2 (by simpa using hl)⟩

lemma ciPre_self (p r : Str) : ciPre p (p ++ r) = true := by
  induction p with
  | nil => rfl
  | cons a t ih =>
    simp only [List.cons_append, ciPre, Bool.and_eq_true]
    exact ⟨by simp [ciEq], ih⟩

lemma toNat_ofNat_small {n : Nat} (h : n < 55296) : (Char.ofNat n).toNat = n := by
  have hv : n.isValidChar := Or.inl h
  rw [Char.ofNat, dif_pos hv]
  rfl

lemma toLower_ne_lt {a : Char} (ha : a ≠ '<') : Char.toLower a ≠ '<' := by
  by_cases h : a.toNat ≥ 65 ∧ a.toNat ≤ 90
  · have he : Char.toLower a = Char.ofNat (a.toNat + 32) := by
      simp only [Char.toLower]
      rw [if_pos h]
    rw [he]
    intro hEq
    have h60 : (Char.ofNat (a.toNat + 32)).toNat = ('<' : Char).toNat := by rw [hEq]
    rw [toNat_ofNat_small (by omega)] at h60
    have hlt : ('<' : Char).toNat = 60 := by decide
    omega
  · have he : Char.toLower a = a := by
      simp only [Char.toLower]
      rw [if_neg h]
    rw [he]
    exact ha

lemma ciEq_lt_false {a : Char} (ha : a ≠ '<') : ciEq '<' a = false := by
  unfold ciEq
  have h1 : Char.toLower '<' = '<' := by decide
  rw [h1, beq_eq_false_iff_ne]
  exact fun hEq => toLower_ne_lt ha hEq.symm

lemma tagFree_tail {c : Char} {t : Str} (h : TagFree (c :: t)) : TagFree t :=
  fun i => by simpa using h (i + 1)

lemma tagFree_append_left {x y : Str} (h : TagFree (x ++ y)) : TagFree x := by
  intro i
  by_cases hi : i ≤ x.length
  · have hd := h i
    rw [List.drop_append_eq_append_drop] at hd
    have h0 : i - x.length = 0 := by omega
    rw [h0, List.drop_zero] at hd
    cases hc : ciPre closeT (x.drop i)
    · cases ho : ciPre openT (x.drop i)
      · simp [tagHead, hc, ho]
      · have ho2 := ciPre_append ho y
        simp [tagHead, ho2] at hd
    · have hc2 := ciPre_append hc y
      simp [tagHead, hc2] at hd
  · have hx : x.drop i = [] := List.drop_eq_nil_of_le (by omega)
    rw [hx]
    rfl

lemma tagFree_append_right {x y : Str} (h : TagFree (x ++ y)) : TagFree y := by
  intro i
  have hd := h (x.length + i)
  rw [List.drop_append_eq_append_drop] at hd
  have h1 : x.drop (x.length + i) = [] := List.drop_eq_nil_of_le (by omega)
  have h2 : x.length + i - x.length = i := by omega
  rw [h1, h2, List.nil_append] at hd
  exact hd

lemma tagFreeB_iff {s : Str} : tagFreeB s = true ↔ TagFree s := by
  induction s with
  | nil =>
    constructor
    · intro _ i
      rw [List.drop_nil]
      rfl
    · intro _
      rfl
  | cons c t ih =>
    simp only [tagFreeB, Bool.and_eq_true, Bool.not_eq_true', ih]
    constructor
    · rintro ⟨h0, ht⟩ i
      cases i with
      | zero => simpa using h0
      | succ i => simpa using ht i
    · intro h
      exact ⟨by simpa using h 0, fun i => by simpa using h (i + 1)⟩

lemma stripGo_succ (f : Nat) (c : Char) (t : Str) :
    stripGo (f + 1) (c :: t) =
      if ciPre closeT (c :: t) then stripGo f ((c :: t).drop 7)
      else if ciPre openT (c :: t) then stripGo f ((c :: t).drop 6)
      else c :: stripGo f t := rfl

lemma stripGo_fuel : ∀ (f g : Nat) (s : Str), s.length ≤ f → s.length ≤ g →
    stripGo f s = stripGo g s := by
  intro f
  induction f with
  | zero =>
    intro g s hf hg
    have hs : s = [] := List.eq_nil_of_length_eq_zero (by omega)
    subst hs
    cases g <;> rfl
  | succ f ih =>
    intro g s hf hg
    cases s with
    | nil => cases g <;> rfl
    | cons c t =>
      cases g with
      | zero => simp at hg
      | succ g =>
        have hf' : t.length ≤ f := by simpa using hf
        have hg' : t.length ≤ g := by simpa using hg
        rw [stripGo_succ, stripGo_succ]
        by_cases h1 : ciPre closeT (c :: t) = true
        · rw [if_pos h1, if_pos h1]
          exact ih g _ (by simp; omega) (by simp; omega)
        · rw [if_neg h1, if_neg h1]
          by_cases h2 : ciPre openT (c :: t) = true
          · rw [if_pos h2, if_pos h2]
            exact ih g _ (by simp; omega) (by simp; omega)
          · rw [if_neg h2, if_neg h2, ih g t hf' hg']

lemma stripGo_tagFree : ∀ (f : Nat) (s : Str), TagFree s → s.length ≤ f →
    stripGo f s = s := by
  intro f
  induction f with
  | zero =>
    intro s h hf
    have hs : s = [] := List.eq_nil_of_length_eq_zero (by omega)
    subst hs
    rfl
  | succ f ih =>
    intro s h hf
    cases s with
    | nil => rfl
    | cons c t =>
      have h0 := h 0
      rw [List.drop_zero] at h0
      simp only [tagHead, Bool.or_eq_false_iff] at h0
      rw [stripGo_succ, if_neg (by simp [h0.1]), if_neg (by simp [h0.2]),
        ih t (tagFree_tail h) (by simpa using hf)]

lemma stripMarks_tagFree {s : Str} (h : TagFree s) : stripMarks s = s :=
  stripGo_tagFree s.length s h (Nat.le_refl _)

lemma ciPre_no_lt {tgTail : Str} (htg : ∀ x ∈ tgTail, ciEq x '<' = false) :
    ∀ (c w : Str), c.length < tgTail.length →
      ciPre tgTail (c ++ '<' :: w) = false := by
  induction tgTail with
  | nil =>
    intro c w h
    simp at h
  | cons x ts ih =>
    intro c w hlen
    cases c with
    | nil =>
      simp only [List.nil_append, ciPre]
      rw [htg x (by simp)]
      simp
    | cons a c' =>
      simp only [List.cons_append, ciPre]
      cases hx : ciEq x a
      · simp
      · rw [Bool.true_and]
        exact ih (fun y hy => htg y (List.mem_cons_of_mem _ hy)) c' w
          (by simpa using hlen)

lemma no_tag_into_tag {c : Str} (hc : TagFree c) (hne : c ≠ []) (w : Str) :
    tagHead (c ++ '<' :: w) = false := by
  obtain ⟨a, c', rfl⟩ := List.exists_cons_of_ne_nil hne
  have h0 := hc 0
  rw [List.drop_zero] at h0
  simp only [tagHead, Bool.or_eq_false_iff] at h0 ⊢
  constructor
  · by_cases hl : closeT.length ≤ (a :: c').length
    · cases hcp : ciPre closeT ((a :: c') ++ '<' :: w)
      · rfl
      · have := ciPre_of_append hcp hl
        rw [h0.1] at this
        cases this
    · have hlen : c'.length < 6 := by
        simp only [closeT, List.length_cons, List.length_nil] at hl
        omega
      show ciPre ('<' :: '/' :: 'm' :: 'a' :: 'r' :: 'k' :: '>' :: [])
        ((a :: c') ++ '<' :: w) = false
      simp only [List.cons_append, ciPre]
      cases hx : ciEq '<' a
      · simp [hx]
      · rw [Bool.true_and]
        exact ciPre_no_lt (by decide) c' w (by simpa using hlen)
  · by_cases hl : openT.length ≤ (a :: c').length
    · cases hcp : ciPre openT ((a :: c') ++ '<' :: w)
      · rfl
      · have := ciPre_of_append hcp hl
        rw [h0.2] at this
        cases this
    · have hlen : c'.length < 5 := by
        simp only [openT, List.length_cons, List.length_nil] at hl
        omega
      show ciPre ('<' :: 'm' :: 'a' :: 'r' :: 'k' :: '>' :: [])
        ((a :: c') ++ '<' :: w) = false
      simp only [List.cons_append, ciPre]
      cases hx : ciEq '<' a
      · simp [hx]
      · rw [Bool.true_and]
        exact ciPre_no_lt (by decide) c' w (by simpa using hlen)

lemma strip_prepend : ∀ (c : Str), TagFree c → ∀ (r : Str),
    (r = [] ∨ ∃ w, r = '<' :: w) →
    stripMarks (c ++ r) = c ++ stripMarks r := by
  intro c
  induction c with
  | nil =>
    intro _ r _
    simp
  | cons a c' ih =>
    intro hc r hr
    have hhead : tagHead ((a :: c') ++ r) = false := by
      rcases hr with rfl | ⟨w, rfl⟩
      · simpa using hc 0
      · exact no_tag_into_tag hc (by simp) w
    simp only [tagHead, Bool.or_eq_false_iff] at hhead
    show stripGo ((a :: c') ++ r).length ((a :: c') ++ r) = _
    have hsh : ((a :: c') ++ r).length = (c' ++ r).length + 1 := by simp
    rw [hsh, List.cons_append, stripGo_succ,
      if_neg (by simpa using hhead.1), if_neg (by simpa using hhead.2)]
    have hrec : stripGo (c' ++ r).length (c' ++ r) = stripMarks (c' ++ r) := rfl
    rw [hrec, ih (tagFree_tail hc) r hr]
    simp

lemma ciPre_closeT_openT (r : Str) : ciPre closeT (openT ++ r) = false := by
  have hd : ciEq '/' 'm' = false := by decide
  simp [closeT, openT, ciPre, hd]

lemma ciPre_openT_closeT (r : Str) : ciPre openT (closeT ++ r) = false := by
  have hd : ciEq 'm' '/' = false := by decide
  simp [closeT, openT, ciPre, hd]

lemma strip_openT (r : Str) : stripMarks (openT ++ r) = stripMarks r := by
  show stripGo ((r.length + 5) + 1)
    ('<' :: ('m' :: 'a' :: 'r' :: 'k' :: '>' :: r)) = stripMarks r
  rw [stripGo_succ]
  rw [if_neg (by simpa using ciPre_closeT_openT r),
    if_pos (show ciPre openT ('<' :: ('m' :: 'a' :: 'r' :: 'k' :: '>' :: r)) = true
      from ciPre_self openT r)]
  show stripGo (r.length + 5) r = stripMarks r
  exact stripGo_fuel _ _ r (by omega) (Nat.le_refl _)

lemma strip_closeT (r : Str) : stripMarks (closeT ++ r) = stripMarks r := by
  show stripGo ((r.length + 6) + 1)
    ('<' :: ('/' :: 'm' :: 'a' :: 'r' :: 'k' :: '>' :: r)) = stripMarks r
  rw [stripGo_succ]
  rw [if_pos (show ciPre closeT ('<' :: ('/' :: 'm' :: 'a' :: 'r' :: 'k' :: '>' :: r)) = true
    from ciPre_self closeT r)]
  show stripGo (r.length + 6) r = stripMarks r
  exact stripGo_fuel _ _ r (by omega) (Nat.le_refl _)

/-! Section: Decomposition of the matcher -/

lemma plainRun_decomp (s : Str) : (plainRun s).1 ++ (plainRun s).2 = s := by
  induction s with
  | nil => rfl
  | cons c t ih =>
    simp only [plainRun]
    split
    · simpa using ih
    · rfl

lemma drop_of_decomp {s x rest : Str} (h : s = x ++ rest) :
    s.drop x.length = rest := by
  rw [h, List.drop_left]

lemma postChk_decomp {s b g : Str} (h : postChk s = some (b, g)) :
    s = b ++ g ++ s.drop (b.length + g.length) := by
  unfold postChk at h
  split at h
  case _ h2 =>
    simp only [Option.some.injEq, Prod.mk.injEq] at h
    obtain ⟨hb, hg⟩ := h
    have hs : s = b ++ g := by
      rw [← hb, ← hg, List.append_nil]
      have hpr := plainRun_decomp s
      rw [h2, List.append_nil] at hpr
      exact hpr.symm
    have hd : s.drop (b.length + g.length) = [] := by
      rw [← List.length_append]
      exact drop_of_decomp (by simp [hs])
    rw [hd, List.append_nil]
    exact hs
  case _ c w h2 =>
    by_cases hc : c = '<'
    · subst hc
      rw [if_pos rfl] at h
      simp only [Option.some.injEq, Prod.mk.injEq] at h
      obtain ⟨hb, hg⟩ := h
      have hs : s = (b ++ g) ++ w := by
        rw [← hb, ← hg]
        have hpr := plainRun_decomp s
        rw [h2] at hpr
        conv_lhs => rw [← hpr]
        simp
      have hd : s.drop (b.length + g.length) = w := by
        rw [← List.length_append]
        exact drop_of_decomp hs
      rw [hd]
      conv_lhs => rw [hs]
    · rw [if_neg hc] at h
      cases h

lemma att_decomp {q t : Str} {k : Nat} {m : HMatch} (hk : k ≤ t.length)
    (h : att q t k = some m) :
    t = m.pre ++ (m.occ ++ (m.post ++ (m.g5 ++ t.drop (lenM m)))) := by
  unfold att at h
  by_cases hp : ciPre q (t.drop k) = true
  · rw [if_pos hp] at h
    cases hpost : postChk (t.drop (k + q.length)) with
    | none => rw [hpost] at h; cases h
    | some bg =>
      obtain ⟨b, g⟩ := bg
      rw [hpost] at h
      simp only [Option.some.injEq] at h
      subst h
      have hql : q.length ≤ (t.drop k).length := ciPre_length hp
      have hql2 : k + q.length ≤ t.length := by
        rw [List.length_drop] at hql
        omega
      have hpre_len : (t.take k).length = k := by
        rw [List.length_take]
        omega
      have hocc_len : ((t.drop k).take q.length).length = q.length := by
        rw [List.length_take, List.length_drop]
        omega
      have hL : lenM ⟨t.take k, (t.drop k).take q.length, b, g⟩ =
          k + q.length + (b.length + g.length) := by
        simp only [lenM, hpre_len, hocc_len]
        omega
      have hdecomp := postChk_decomp hpost
      have e3 : (t.drop (k + q.length)).drop (b.length + g.length) =
          t.drop (k + q.length + (b.length + g.length)) := by
        rw [List.drop_drop]
      simp only [hL]
      rw [← e3]
      calc t = t.take k ++ t.drop k := (List.take_append_drop k t).symm
        _ = t.take k ++ ((t.drop k).take q.length ++ (t.drop k).drop q.length) := by
            congr 1
            exact (List.take_append_drop _ _).symm
        _ = t.take k ++ ((t.drop k).take q.length ++ t.drop (k + q.length)) := by
            rw [List.drop_drop]
        _ = _ := by
            rw [hdecomp]
            simp [List.append_assoc]
  · rw [if_neg hp] at h
    cases h

lemma tryK_decomp {q t : Str} {m : HMatch} :
    ∀ {k : Nat}, k ≤ t.length → tryK q t k = some m →
      t = m.pre ++ (m.occ ++ (m.post ++ (m.g5 ++ t.drop (lenM m)))) := by
  intro k
  induction k with
  | zero => exact fun hk h => att_decomp hk h
  | succ k ih =>
    intro hk h
    simp only [tryK] at h
    cases hatt : att q t (k + 1) with
    | some mm =>
      rw [hatt] at h
      simp only [Option.some.injEq] at h
      subst h
      exact att_decomp hk hatt
    | none =>
      rw [hatt] at h
      exact ih (by omega) h

lemma matchAt_decomp {q t : Str} {m : HMatch} (h : matchAt q t = some m) :
    t = m.pre ++ (m.occ ++ (m.post ++ (m.g5 ++ t.drop (lenM m)))) := by
  unfold matchAt at h
  have hk : (plainRun t).1.length ≤ t.length := by
    have := plainRun_decomp t
    have h2 : (plainRun t).1.length + (plainRun t).2.length = t.length := by
      rw [← List.length_append, this]
    omega
  exact tryK_decomp hk h

/-! Section: Stripping undoes wrapping -/

lemma wrapGo_nil (q : Str) : ∀ f : Nat, wrapGo q f [] = [] := by
  intro f
  cases f <;> rfl

lemma wrapGo_succ (q : Str) (f : Nat) (c : Char) (t : Str) :
    wrapGo q (f + 1) (c :: t) =
      if c = '>' then
        match matchAt q t with
        | some m =>
          '>' :: (m.pre ++ openT ++ m.occ ++ closeT ++ m.post ++ m.g5
            ++ wrapGo q f (t.drop (lenM m)))
        | none => c :: wrapGo q f t
      else c :: wrapGo q f t := rfl

lemma strip_assemble {C A B W T : Str} (hC : TagFree C) (hA : TagFree A)
    (hW : stripMarks (B ++ W) = B ++ T) :
    stripMarks (C ++ (openT ++ (A ++ (closeT ++ (B ++ W))))) =
      C ++ (A ++ (B ++ T)) := by
  rw [strip_prepend C hC (openT ++ (A ++ (closeT ++ (B ++ W)))) (Or.inr ⟨_, rfl⟩)]
  rw [strip_openT]
  rw [strip_prepend A hA (closeT ++ (B ++ W)) (Or.inr ⟨_, rfl⟩)]
  rw [strip_closeT]
  rw [hW]

lemma strip_wrapGo (q : Str) :
    ∀ (f : Nat) (rest pfx : Str), rest.length ≤ f → TagFree (pfx ++ rest) →
      stripMarks (pfx ++ wrapGo q f rest) = pfx ++ rest := by
  intro f
  induction f with
  | zero =>
    intro rest pfx hf htf
    have hr : rest = [] := List.eq_nil_of_length_eq_zero (by omega)
    subst hr
    show stripMarks (pfx ++ []) = pfx ++ []
    rw [List.append_nil] at htf ⊢
    exact stripMarks_tagFree htf
  | succ f ih =>
    intro rest pfx hf htf
    cases rest with
    | nil =>
      show stripMarks (pfx ++ []) = pfx ++ []
      rw [List.append_nil] at htf ⊢
      exact stripMarks_tagFree htf
    | cons c t =>
      by_cases hc : c = '>'
      case neg =>
        have hw : wrapGo q (f + 1) (c :: t) = c :: wrapGo q f t := by
          rw [wrapGo_succ, if_neg hc]
        rw [hw]
        have e1 : pfx ++ c :: wrapGo q f t = (pfx ++ [c]) ++ wrapGo q f t := by simp
        have e2 : (pfx ++ [c]) ++ t = pfx ++ c :: t := by simp
        rw [e1, ih t (pfx ++ [c]) (by simpa using hf) (by rw [e2]; exact htf), e2]
      case pos =>
        subst hc
        cases hm : matchAt q t with
        | none =>
          have hw : wrapGo q (f + 1) ('>' :: t) = '>' :: wrapGo q f t := by
            rw [wrapGo_succ, if_pos rfl, hm]
          rw [hw]
          have e1 : pfx ++ '>' :: wrapGo q f t = (pfx ++ ['>']) ++ wrapGo q f t := by
            simp
          have e2 : (pfx ++ ['>']) ++ t = pfx ++ '>' :: t := by simp
          rw [e1, ih t (pfx ++ ['>']) (by simpa using hf) (by rw [e2]; exact htf), e2]
        | some m =>
          have hw : wrapGo q (f + 1) ('>' :: t) =
              '>' :: (m.pre ++ openT ++ m.occ ++ closeT ++ m.post ++ m.g5
                ++ wrapGo q f (t.drop (lenM m))) := by
            rw [wrapGo_succ, if_pos rfl, hm]
          rw [hw]
          have hdec := matchAt_decomp hm
          have e0 : pfx ++ '>' :: (m.pre ++ openT ++ m.occ ++ closeT ++ m.post
              ++ m.g5 ++ wrapGo q f (t.drop (lenM m))) =
              (pfx ++ '>' :: m.pre) ++ (openT ++ (m.occ ++ (closeT
                ++ ((m.post ++ m.g5) ++ wrapGo q f (t.drop (lenM m)))))) := by
            simp
          have e5 : pfx ++ '>' :: t =
              (pfx ++ '>' :: m.pre) ++ (m.occ ++ ((m.post ++ m.g5)
                ++ t.drop (lenM m))) := by
            conv_lhs => rw [hdec]
            simp
          have htf2 : TagFree ((pfx ++ '>' :: m.pre) ++ (m.occ
              ++ ((m.post ++ m.g5) ++ t.drop (lenM m)))) := by
            rw [← e5]
            exact htf
          have hC := tagFree_append_left htf2
          have hrest := tagFree_append_right htf2
          have hA := tagFree_append_left hrest
          have hBT := tagFree_append_right hrest
          have hlen2 : (t.drop (lenM m)).length ≤ f := by
            rw [List.length_drop]
            have ht : t.length + 1 ≤ f + 1 := by simpa using hf
            omega
          have hW := ih (t.drop (lenM m)) (m.post ++ m.g5) hlen2 hBT
          rw [e0, strip_assemble hC hA hW, ← e5]

lemma strip_hlWrap {q s : Str} (h : TagFree s) : stripMarks (hlWrap q s) = s := by
  unfold hlWrap
  cases hm : matchAt q s with
  | none =>
    have hmain := strip_wrapGo q s.length s [] (Nat.le_refl _) (by simpa using h)
    simpa using hmain
  | some m =>
    dsimp only
    have hdec := matchAt_decomp hm
    have e0 : m.pre ++ openT ++ m.occ ++ closeT ++ m.post ++ m.g5
        ++ wrapGo q s.length (s.drop (lenM m)) =
        m.pre ++ (openT ++ (m.occ ++ (closeT ++ ((m.post ++ m.g5)
          ++ wrapGo q s.length (s.drop (lenM m)))))) := by
      simp
    have e5 : s = m.pre ++ (m.occ ++ ((m.post ++ m.g5) ++ s.drop (lenM m))) := by
      conv_lhs => rw [hdec]
      simp
    have htf2 : TagFree (m.pre ++ (m.occ ++ ((m.post ++ m.g5)
        ++ s.drop (lenM m)))) := by
      rw [← e5]
      exact h
    have hC := tagFree_append_left htf2
    have hrest := tagFree_append_right htf2
    have hA := tagFree_append_left hrest
    have hBT := tagFree_append_right hrest
    have hlen2 : (s.drop (lenM m)).length ≤ s.length := by
      rw [List.length_drop]
      omega
    have hW := strip_wrapGo q s.length (s.drop (lenM m)) (m.post ++ m.g5) hlen2 hBT
    rw [e0, strip_assemble hC hA hW]
    exact e5.symm

lemma strip_highlightText {html : Str} (hh : TagFree html) (q : Str)
    {x : Str} (hx : stripMarks x = html) :
    stripMarks (highlightText x q) = html := by
  simp only [highlightText]
  rw [hx]
  by_cases hq : q = []
  · rw [if_pos hq]
    exact stripMarks_tagFree hh
  · rw [if_neg hq]
    exact strip_hlWrap hh

/-! Section: The matcher on plain (single text run) subjects -/

lemma plainC_ne_lt {c : Char} (hc : plainC c = true) : c ≠ '<' := by
  simp [plainC] at hc
  tauto

lemma tagFree_of_plain {s : Str} (hs : ∀ c ∈ s, plainC c = true) : TagFree s := by
  intro i
  cases hd : s.drop i with
  | nil => rfl
  | cons c t =>
    have hcmem : c ∈ s :=
      List.mem_of_mem_drop (by rw [hd]; exact List.mem_cons_self c t)
    have hlt : ciEq '<' c = false := ciEq_lt_false (plainC_ne_lt (hs c hcmem))
    simp [tagHead, closeT, openT, ciPre, hlt]

lemma plainRun_of_plain {s : Str} (hs : ∀ c ∈ s, plainC c = true) :
    plainRun s = (s, []) := by
  induction s with
  | nil => rfl
  | cons c t ih =>
    unfold plainRun
    rw [if_pos (hs c (List.mem_cons_self c t)),
      ih (fun x hx => hs x (List.mem_cons_of_mem _ hx))]

lemma att_of_plain {s q : Str} (hs : ∀ c ∈ s, plainC c = true) (k : Nat) :
    att q s k = (if ciPre q (s.drop k) = true then
      some ⟨s.take k, (s.drop k).take q.length, s.drop (k + q.length), []⟩
      else none) := by
  unfold att
  by_cases hp : ciPre q (s.drop k) = true
  · rw [if_pos hp, if_pos hp]
    have hplain : ∀ c ∈ s.drop (k + q.length), plainC c = true :=
      fun c hc => hs c (List.mem_of_mem_drop hc)
    unfold postChk
    rw [plainRun_of_plain hplain]
  · rw [if_neg hp, if_neg hp]

lemma lastOccGo_spec {q s : Str} :
    ∀ {k0 k : Nat}, lastOccGo q s k0 = some k →
      k ≤ k0 ∧ ciPre q (s.drop k) = true := by
  intro k0
  induction k0 with
  | zero =>
    intro k h
    unfold lastOccGo at h
    by_cases hc : ciPre q s = true
    · rw [if_pos hc] at h
      simp only [Option.some.injEq] at h
      subst h
      exact ⟨Nat.le_refl _, by rw [List.drop_zero]; exact hc⟩
    · rw [if_neg hc] at h
      cases h
  | succ k0 ih =>
    intro k h
    unfold lastOccGo at h
    by_cases hc : ciPre q (s.drop (k0 + 1)) = true
    · rw [if_pos hc] at h
      simp only [Option.some.injEq] at h
      subst h
      exact ⟨Nat.le_refl _, hc⟩
    · rw [if_neg hc] at h
      obtain ⟨h1, h2⟩ := ih h
      exact ⟨by omega, h2⟩

lemma tryK_of_plain {s q : Str} (hs : ∀ c ∈ s, plainC c = true) :
    ∀ k : Nat, tryK q s k =
      Option.map (fun j => (⟨s.take j, (s.drop j).take q.length,
        s.drop (j + q.length), []⟩ : HMatch)) (lastOccGo q s k) := by
  intro k
  induction k with
  | zero =>
    show att q s 0 = _
    rw [att_of_plain hs 0]
    unfold lastOccGo
    rw [List.drop_zero]
    by_cases hc : ciPre q s = true
    · rw [if_pos hc, if_pos hc]
      rfl
    · rw [if_neg hc, if_neg hc]
      rfl
  | succ k ih =>
    show (match att q s (k + 1) with
      | some m => some m
      | none => tryK q s k) = _
    rw [att_of_plain hs (k + 1)]
    unfold lastOccGo
    by_cases hc : ciPre q (s.drop (k + 1)) = true
    · rw [if_pos hc, if_pos hc]
      rfl
    · rw [if_neg hc, if_neg hc]
      exact ih

lemma matchAt_of_plain {s q : Str} (hs : ∀ c ∈ s, plainC c = true) :
    matchAt q s = Option.map (fun j => (⟨s.take j, (s.drop j).take q.length,
      s.drop (j + q.length), []⟩ : HMatch)) (lastOcc q s) := by
  unfold matchAt lastOcc
  rw [plainRun_of_plain hs]
  exact tryK_of_plain hs s.length

/-! Section: Claim C1: row match criterion -/

/-- C1: For a query that does not trim to empty, with the matched-row and
no-match-row handlers configured (and a callable `resetTable`, so that the
unconditional reset does not raise), a row selected by the row selector is
placed in the matched set iff the lowercase concatenation of its searchable
cells' text contains `trim(Q).toLowerCase()` as a substring; otherwise it is
placed in the non-matched set. -/
theorem c1_row_match_iff (cfg : Config) (table : Table) (query : Str)
    (hmr : cfg.onMatchRow = true) (hnm : cfg.onNoMatchRow = true)
    (hrt : cfg.resetTable = true) (hq : trimStr query ≠ [])
    (i : Nat) (row : List Str) (hrow : table.get? i = some row) :
    (i ∈ (searchFor cfg table emptyState query).1.matchRows ↔
       containsSub (lcStr (trimStr query)) (lcStr (cellsText row)) = true) ∧
    (i ∈ (searchFor cfg table emptyState query).1.noMatchRows ↔
       containsSub (lcStr (trimStr query)) (lcStr (cellsText row)) = false) := by
  have hq' : lcStr (trimStr query) ≠ [] := by
    simp only [lcStr, ne_eq, List.map_eq_nil_iff]
    exact hq
  rw [searchFor_of_searching cfg table emptyState query hrt hq']
  rw [reset_emptyState]
  have henum : ∀ r : List Str, (i, r) ∈ enumF 0 table → r = row := by
    intro r hmem
    rw [mem_enumF] at hmem
    obtain ⟨k, hk, hget⟩ := hmem
    have hki : k = i := by omega
    rw [hki, hrow] at hget
    exact (Option.some_inj.mp hget).symm
  have henum2 : (i, row) ∈ enumF 0 table := by
    rw [mem_enumF]; exact ⟨i, by omega, hrow⟩
  constructor
  · simp only [emptyState, List.nil_append, passOut_rows_mem]
    constructor
    · rintro ⟨⟨a, r⟩, hmem, hr⟩
      dsimp only at hmem hr
      rw [rowStep_rows_mem] at hr
      obtain ⟨_, hc, hai⟩ := hr
      subst hai
      have hrr := henum r hmem
      subst hrr
      exact hc
    · intro hc
      exact ⟨(i, row), henum2, by rw [rowStep_rows_mem]; exact ⟨hmr, hc, rfl⟩⟩
  · simp only [emptyState, List.nil_append, passOut_noRows_mem]
    constructor
    · rintro ⟨⟨a, r⟩, hmem, hr⟩
      dsimp only at hmem hr
      rw [rowStep_noRows_mem] at hr
      obtain ⟨_, hc, hai⟩ := hr
      subst hai
      have hrr := henum r hmem
      subst hrr
      exact hc
    · intro hc
      exact ⟨(i, row), henum2, by rw [rowStep_noRows_mem]; exact ⟨hnm, hc, rfl⟩⟩

/-- Witness for C1 at a concrete table and query. -/
theorem c1_row_match_iff_witness :
    (cfgNoMatchOnly.onMatchRow = true ∧ cfgNoMatchOnly.onNoMatchRow = true ∧
      cfgNoMatchOnly.resetTable = true ∧ trimStr (" Cat ".toList) ≠ [] ∧
      ([[ "alice".toList, "bob".toList ], [ "catherine".toList, "smith".toList ]]
        : Table).get? 1 = some [ "catherine".toList, "smith".toList ]) ∧
    ((1 ∈ (searchFor cfgNoMatchOnly
        [[ "alice".toList, "bob".toList ], [ "catherine".toList, "smith".toList ]]
        emptyState (" Cat ".toList)).1.matchRows ↔
       containsSub (lcStr (trimStr (" Cat ".toList)))
         (lcStr (cellsText [ "catherine".toList, "smith".toList ])) = true) ∧
     (1 ∈ (searchFor cfgNoMatchOnly
        [[ "alice".toList, "bob".toList ], [ "catherine".toList, "smith".toList ]]
        emptyState (" Cat ".toList)).1.noMatchRows ↔
       containsSub (lcStr (trimStr (" Cat ".toList)))
         (lcStr (cellsText [ "catherine".toList, "smith".toList ])) = false)) :=
  ⟨⟨rfl, rfl, rfl, by decide, rfl⟩,
    c1_row_match_iff cfgNoMatchOnly _ _ rfl rfl rfl (by decide) 1 _ rfl⟩

/-! Section: Claim C2: which cells are recorded and called back -/

/-- C2 counterexample: For the table `[["cat","dog"]]` and query `"cat"`,
the cell `(0,1)` (text `"dog"`) is recorded in the matched-cell list even
though its own text does not contain the query: the claim that the list
contains exactly the cells whose text contains the query is false. -/
theorem c2_cells_counterexample :
    (0, 1) ∈ (searchFor defaultConfig [[ "cat".toList, "dog".toList ]]
        emptyState ("cat".toList)).1.matchCells ∧
    containsSub ("cat".toList) (lcStr ("dog".toList)) = false := by
  constructor
  · decide
  · decide

/-- C2 amended: For every row whose concatenated searchable-cell text
contains the normalized query, `searchFor` records and calls back **all** of
that row's searchable cells (when `onMatchCell` is callable), not only the
cells whose own text contains the query: the matched-cell list contains
exactly the pairs (i, j) with row i matched and j a cell index of row i, and
each recorded cell receives the matched-cell callback. -/
theorem c2_amended_all_row_cells (cfg : Config) (table : Table) (query : Str)
    (hmc : cfg.onMatchCell = true) (hrt : cfg.resetTable = true)
    (hq : trimStr query ≠ []) (i j : Nat) :
    ((i, j) ∈ (searchFor cfg table emptyState query).1.matchCells ↔
      ∃ row, table.get? i = some row ∧ j < row.length ∧
        containsSub (lcStr (trimStr query)) (lcStr (cellsText row)) = true) ∧
    ((i, j) ∈ (searchFor cfg table emptyState query).1.matchCells →
      Event.matchCellEv i j (lcStr (trimStr query)) ∈
        (searchFor cfg table emptyState query).2.1) := by
  have hq' : lcStr (trimStr query) ≠ [] := by
    simp only [lcStr, ne_eq, List.map_eq_nil_iff]
    exact hq
  rw [searchFor_of_searching cfg table emptyState query hrt hq']
  rw [reset_emptyState]
  have hmain : ((i, j) ∈ (passOut cfg (lcStr (trimStr query)) (enumF 0 table)).cells ↔
      ∃ row, table.get? i = some row ∧ j < row.length ∧
        containsSub (lcStr (trimStr query)) (lcStr (cellsText row)) = true) := by
    rw [passOut_cells_mem]
    constructor
    · rintro ⟨⟨a, r⟩, hmem, hr⟩
      dsimp only at hmem hr
      rw [rowStep_cells_mem] at hr
      obtain ⟨_, hc, hai, hlen⟩ := hr
      subst hai
      rw [mem_enumF] at hmem
      obtain ⟨k, hk, hget⟩ := hmem
      have hki : k = i := by omega
      rw [hki] at hget
      exact ⟨r, hget, hlen, hc⟩
    · rintro ⟨row, hget, hlen, hc⟩
      refine ⟨(i, row), ?_, ?_⟩
      · rw [mem_enumF]; exact ⟨i, by omega, hget⟩
      · rw [rowStep_cells_mem]; exact ⟨hmc, hc, rfl, hlen⟩
  constructor
  · simpa [emptyState] using hmain
  · intro hmem
    simp only [emptyState, List.nil_append] at hmem
    rw [hmain] at hmem
    obtain ⟨row, hget, hlen, hc⟩ := hmem
    simp only [List.mem_append]
    left; right
    rw [passOut_evs_mem]
    refine ⟨(i, row), ?_, ?_⟩
    · rw [mem_enumF]; exact ⟨i, by omega, hget⟩
    · rw [rowStep_matchCellEv_mem]; exact ⟨hmc, hc, rfl, hlen, rfl⟩

/-- Witness for the amended C2. -/
theorem c2_amended_all_row_cells_witness :
    (defaultConfig.onMatchCell = true ∧ defaultConfig.resetTable = true ∧
      trimStr ("cat".toList) ≠ []) ∧
    (((0, 1) ∈ (searchFor defaultConfig [[ "cat".toList, "dog".toList ]]
        emptyState ("cat".toList)).1.matchCells ↔
      ∃ row, ([[ "cat".toList, "dog".toList ]] : Table).get? 0 = some row ∧
        1 < row.length ∧
        containsSub (lcStr (trimStr ("cat".toList))) (lcStr (cellsText row)) = true) ∧
     ((0, 1) ∈ (searchFor defaultConfig [[ "cat".toList, "dog".toList ]]
        emptyState ("cat".toList)).1.matchCells →
      Event.matchCellEv 0 1 (lcStr (trimStr ("cat".toList))) ∈
        (searchFor defaultConfig [[ "cat".toList, "dog".toList ]]
          emptyState ("cat".toList)).2.1)) :=
  ⟨⟨rfl, rfl, by decide⟩,
    c2_amended_all_row_cells defaultConfig _ _ rfl rfl (by decide) 0 1⟩

/-! Section: Claim C3: the tracking lists after `reset` -/

/-- C3 code-bug evaluation: With `onNoMatchRow` configured but
`resetNoMatchRow` left at its default `null`, a search that produces a
non-matching row leaves `noMatchRows = [0]`, and a subsequent `reset()` does
NOT clear it: `doReset`'s `arr = []` only rebinds the local parameter, so the
caller's array survives.  The spec's "Clears all three tracking lists to
empty" fails exactly in the not-callable case. -/
theorem c3_noMatchRows_survive :
    (reset cfgNoMatchOnly
      (searchFor cfgNoMatchOnly [[ "alice".toList ]] emptyState
        ("zzz".toList)).1).1.noMatchRows = [0] ∧
    ((reset cfgNoMatchOnly
      (searchFor cfgNoMatchOnly [[ "alice".toList ]] emptyState
        ("zzz".toList)).1).1.noMatchRows ≠ []) := by
  constructor
  · decide
  · decide

/-! Section: Claim C4: absent callbacks never raise? -/

/-- C4 counterexample: the call `config.resetTable(self)` is invoked
unconditionally by `reset()`, with no `typeof` guard: when `resetTable` is
not callable, both `reset()` and `searchFor()` raise a TypeError. -/
theorem c4_resetTable_unguarded :
    (reset cfgNoResetTable emptyState).2.2 = true ∧
    (searchFor cfgNoResetTable [] emptyState ("cat".toList)).2.2 = true := by
  constructor
  · decide
  · decide

/-- C4 amended: Every callback invocation except `resetTable` is
guarded by a callable check, so as long as the configured `resetTable` is
callable, `reset()` and `searchFor()` never raise, whatever the other
callbacks are. -/
theorem c4_amended_no_raise (cfg : Config) (table : Table) (st : TSState)
    (query : Str) (h : cfg.resetTable = true) :
    (reset cfg st).2.2 = false ∧ (searchFor cfg table st query).2.2 = false := by
  have h1 : (reset cfg st).2.2 = false := by rw [reset_raised, h]; rfl
  refine ⟨h1, ?_⟩
  unfold searchFor
  simp only [h1]
  split
  · simp_all
  · split
    · exact h1
    · rfl

/-- Witness for the amended C4. -/
theorem c4_amended_no_raise_witness :
    defaultConfig.resetTable = true ∧
    ((reset defaultConfig emptyState).2.2 = false ∧
      (searchFor defaultConfig [] emptyState []).2.2 = false) :=
  ⟨rfl, c4_amended_no_raise defaultConfig [] emptyState [] rfl⟩

/-! Section: Claim C7: queries that trim to empty reset and do nothing else -/

/-- C7: A query that trims to empty makes `searchFor` behave exactly as
`reset`: same state, same events, same raising; no start or completed
callback fires; and starting from the clean state, the match-state lists
remain empty. -/
theorem c7_empty_query_reset_only (cfg : Config) (table : Table) (st : TSState)
    (query : Str) (h : trimStr query = []) :
    searchFor cfg table st query = reset cfg st ∧
    Event.startEv ∉ (searchFor cfg table st query).2.1 ∧
    Event.completedEv ∉ (searchFor cfg table st query).2.1 ∧
    (searchFor cfg table emptyState query).1 = emptyState := by
  have hq : lcStr (trimStr query) = [] := by rw [h]; rfl
  have hmain : ∀ s, searchFor cfg table s query = reset cfg s := by
    intro s
    unfold searchFor
    simp only [hq]
    split
    · rfl
    · simp
  refine ⟨hmain st, ?_, ?_, ?_⟩
  · rw [hmain st]
    intro hmem
    rcases mem_reset_events hmem with ⟨i, j, hh⟩ | ⟨i, hh⟩ | ⟨i, hh⟩ | hh <;> cases hh
  · rw [hmain st]
    intro hmem
    rcases mem_reset_events hmem with ⟨i, j, hh⟩ | ⟨i, hh⟩ | ⟨i, hh⟩ | hh <;> cases hh
  · rw [hmain emptyState, reset_emptyState]

/-- Witness for C7 with the whitespace-only query `"   "`. -/
theorem c7_empty_query_reset_only_witness :
    trimStr ("   ".toList) = [] ∧
    (searchFor defaultConfig [[ "x".toList ]] emptyState ("   ".toList) =
        reset defaultConfig emptyState ∧
      Event.startEv ∉ (searchFor defaultConfig [[ "x".toList ]] emptyState
        ("   ".toList)).2.1 ∧
      Event.completedEv ∉ (searchFor defaultConfig [[ "x".toList ]] emptyState
        ("   ".toList)).2.1 ∧
      (searchFor defaultConfig [[ "x".toList ]] emptyState ("   ".toList)).1 =
        emptyState) :=
  ⟨by decide, c7_empty_query_reset_only defaultConfig _ emptyState _ (by decide)⟩

/-! Section: Claim C8: `reset` is idempotent on a clean state -/

/-- C8: A second `reset()` right after a first one is a no-op apart from
the unconditional `resetTable` call: the tracking lists are unchanged, no
per-cell or per-row reset callback fires (the second event list is at most
`[resetTableEv]`), and under the default class semantics the annotation
state is unchanged. -/
theorem c8_reset_idempotent (cfg : Config) (st : TSState) :
    reset cfg ((reset cfg st).1) =
      ((reset cfg st).1,
        (if cfg.resetTable then [Event.resetTableEv] else []),
        (reset cfg st).2.2) ∧
    ∀ a : Ann,
      applyEvents (applyEvents a (reset cfg st).2.1)
          (reset cfg ((reset cfg st).1)).2.1 =
        applyEvents a (reset cfg st).2.1 := by
  have hfst : reset cfg ((reset cfg st).1) =
      ((reset cfg st).1,
        (if cfg.resetTable then [Event.resetTableEv] else []),
        (reset cfg st).2.2) := by
    unfold reset doReset
    cases h1 : cfg.resetCell <;> cases h2 : cfg.resetMatchRow <;>
      cases h3 : cfg.resetNoMatchRow <;> cases h4 : cfg.resetTable <;> simp
  refine ⟨hfst, ?_⟩
  intro a
  rw [hfst]
  have hres : ∀ b : Ann, b.results = false →
      applyEvents b [Event.resetTableEv] = b := by
    intro b hb
    obtain ⟨s, r, m⟩ := b
    simp only [applyEvents, List.foldl_cons, List.foldl_nil, applyEvent]
    simp only at hb
    rw [hb]
  cases h4 : cfg.resetTable
  · simp [h4, applyEvents]
  · refine hres _ ?_
    unfold reset
    simp [h4]
    rw [applyEvents_append]
    simp [applyEvents, applyEvent]

/-! Section: Claim C9: the matched-cell callback receives the normalized query -/

/-- C9: Every matched-cell callback invocation during
`searchFor(query)` receives `trim(query).toLowerCase()` as its query
argument, never the caller's original string. -/
theorem c9_matchCell_query_normalized (cfg : Config) (table : Table)
    (st : TSState) (query : Str) (i j : Nat) (p : Str)
    (h : Event.matchCellEv i j p ∈ (searchFor cfg table st query).2.1) :
    p = lcStr (trimStr query) := by
  by_cases h1 : (reset cfg st).2.2 = true
  · rw [searchFor_early cfg table st query (Or.inl h1)] at h
    rcases mem_reset_events h with ⟨a, b, hh⟩ | ⟨a, hh⟩ | ⟨a, hh⟩ | hh <;> cases hh
  · by_cases h2 : lcStr (trimStr query) = []
    · rw [searchFor_early cfg table st query (Or.inr h2)] at h
      rcases mem_reset_events h with ⟨a, b, hh⟩ | ⟨a, hh⟩ | ⟨a, hh⟩ | hh <;> cases hh
    · rw [searchFor_of_searching cfg table st query
        (resetTable_true_of_not_raised h1) h2] at h
      simp only [List.mem_append] at h
      rcases h with ((h | h) | h) | h
      · rcases mem_reset_events h with ⟨a, b, hh⟩ | ⟨a, hh⟩ | ⟨a, hh⟩ | hh <;> cases hh
      · split at h <;> simp_all
      · rw [passOut_evs_mem] at h
        obtain ⟨pr, _, hr⟩ := h
        rw [rowStep_matchCellEv_mem] at hr
        exact hr.2.2.2.2
      · split at h <;> simp_all

/-- Witness for C9: searching for `" CAT "` invokes the matched-cell
callback with the normalized query `"cat"`. -/
theorem c9_matchCell_query_normalized_witness :
    Event.matchCellEv 0 0 ("cat".toList) ∈
      (searchFor defaultConfig [[ "cat".toList ]] emptyState
        (" CAT ".toList)).2.1 ∧
    ("cat".toList : Str) = lcStr (trimStr (" CAT ".toList)) :=
  ⟨by decide,
    c9_matchCell_query_normalized defaultConfig [[ "cat".toList ]] emptyState
      (" CAT ".toList) 0 0 ("cat".toList) (by decide)⟩

/-! Section: Claim C10: lists are populated only when the callback is callable -/

/-- C10: During a `searchFor` pass from the clean state, a tracking list
receives entries only when the corresponding on-match callback is callable:
with the callback absent the list stays empty for the pass. -/
theorem c10_lists_need_callbacks (cfg : Config) (table : Table) (query : Str) :
    (cfg.onMatchCell = false →
      (searchFor cfg table emptyState query).1.matchCells = []) ∧
    (cfg.onMatchRow = false →
      (searchFor cfg table emptyState query).1.matchRows = []) ∧
    (cfg.onNoMatchRow = false →
      (searchFor cfg table emptyState query).1.noMatchRows = []) := by
  have hcells : ∀ h : cfg.onMatchCell = false,
      ∀ l, (passOut cfg (lcStr (trimStr query)) l).cells = [] := by
    intro hf l
    induction l with
    | nil => rfl
    | cons hd tl ih =>
      obtain ⟨i, r⟩ := hd
      simp only [passOut, stepApp, ih, List.append_nil]
      unfold rowStep
      split
      · simp [hf]
      · split <;> rfl
  have hrows : ∀ h : cfg.onMatchRow = false,
      ∀ l, (passOut cfg (lcStr (trimStr query)) l).rows = [] := by
    intro hf l
    induction l with
    | nil => rfl
    | cons hd tl ih =>
      obtain ⟨i, r⟩ := hd
      simp only [passOut, stepApp, ih, List.append_nil]
      unfold rowStep
      split
      · simp [hf]
      · split <;> rfl
  have hno : ∀ h : cfg.onNoMatchRow = false,
      ∀ l, (passOut cfg (lcStr (trimStr query)) l).noRows = [] := by
    intro hf l
    induction l with
    | nil => rfl
    | cons hd tl ih =>
      obtain ⟨i, r⟩ := hd
      simp only [passOut, stepApp, ih, List.append_nil]
      unfold rowStep
      split
      · rfl
      · split
        · simp_all
        · rfl
  have hstate : (searchFor cfg table emptyState query).1.matchCells =
        (if (reset cfg emptyState).2.2 = true ∨ lcStr (trimStr query) = [] then []
         else (passOut cfg (lcStr (trimStr query)) (enumF 0 table)).cells) ∧
      (searchFor cfg table emptyState query).1.matchRows =
        (if (reset cfg emptyState).2.2 = true ∨ lcStr (trimStr query) = [] then []
         else (passOut cfg (lcStr (trimStr query)) (enumF 0 table)).rows) ∧
      (searchFor cfg table emptyState query).1.noMatchRows =
        (if (reset cfg emptyState).2.2 = true ∨ lcStr (trimStr query) = [] then []
         else (passOut cfg (lcStr (trimStr query)) (enumF 0 table)).noRows) := by
    by_cases h1 : (reset cfg emptyState).2.2 = true
    · rw [searchFor_early cfg table emptyState query (Or.inl h1), reset_emptyState]
      simp only [h1, true_or, if_true]
      exact ⟨rfl, rfl, rfl⟩
    · by_cases h2 : lcStr (trimStr query) = []
      · rw [searchFor_early cfg table emptyState query (Or.inr h2), reset_emptyState]
        simp only [h2, or_true, if_true]
        exact ⟨rfl, rfl, rfl⟩
      · rw [searchFor_of_searching cfg table emptyState query
          (resetTable_true_of_not_raised h1) h2, reset_emptyState]
        have hcond : ¬((reset cfg emptyState).2.2 = true ∨
            lcStr (trimStr query) = []) := by
          rintro (hh | hh)
          · exact h1 hh
          · exact h2 hh
        simp only [if_neg hcond]
        exact ⟨rfl, rfl, rfl⟩
  obtain ⟨hc, hr, hn⟩ := hstate
  refine ⟨fun hf => ?_, fun hf => ?_, fun hf => ?_⟩
  · rw [hc]; split
    · rfl
    · exact hcells hf _
  · rw [hr]; split
    · rfl
    · exact hrows hf _
  · rw [hn]; split
    · rfl
    · exact hno hf _

/-- Witness for C10: with no on-match callbacks, a matching search records
nothing. -/
theorem c10_lists_need_callbacks_witness :
    (searchFor cfgNone [[ "cat".toList ]] emptyState ("cat".toList)).1.matchCells = [] ∧
    (searchFor cfgNone [[ "cat".toList ]] emptyState ("cat".toList)).1.matchRows = [] ∧
    (searchFor cfgNone [[ "cat".toList ]] emptyState ("cat".toList)).1.noMatchRows = [] :=
  ⟨(c10_lists_need_callbacks cfgNone _ _).1 rfl,
    (c10_lists_need_callbacks cfgNone _ _).2.1 rfl,
    (c10_lists_need_callbacks cfgNone _ _).2.2 rfl⟩

/-! Section: Claim C5: which occurrences does the highlighter wrap? -/

/-- C5 counterexample: For the cell HTML `"cat cat"` (a single text run
with two occurrences) and query `"cat"`, the highlighter wraps only the
second (last) occurrence: the greedy `([^"<>]*)` before the query consumes
the earlier occurrences, and the whole run is consumed by the one match.
The claim that every non-overlapping occurrence in each text run is wrapped
is false. -/
theorem c5_wraps_only_last :
    highlightText ("cat cat".toList) ("cat".toList) =
      ("cat <mark>cat</mark>".toList) ∧
    ("cat <mark>cat</mark>".toList : Str) ≠
      ("<mark>cat</mark> <mark>cat</mark>".toList) := by
  constructor
  · decide
  · decide

/-- C5 amended: Within a text run the highlighter wraps exactly one
occurrence of the query — the last case-insensitive one.  Formalised for a
cell HTML that is a single text run (no `"`, `<`, `>` characters): when the
non-empty query occurs, with last occurrence at offset `k`, the result is
the original text with `<mark>`/`</mark>` inserted around that occurrence
only. -/
theorem c5_amended_wraps_last_occurrence (s q : Str)
    (hs : ∀ c ∈ s, plainC c = true) (hq : q ≠ []) (k : Nat)
    (hk : lastOcc q s = some k) :
    highlightText s q =
      s.take k ++ openT ++ (s.drop k).take q.length ++ closeT
        ++ s.drop (k + q.length) := by
  obtain ⟨hk_le, hci⟩ := lastOccGo_spec hk
  have hstrip : stripMarks s = s := stripMarks_tagFree (tagFree_of_plain hs)
  show (if q = [] then stripMarks s else hlWrap q (stripMarks s)) = _
  rw [if_neg hq, hstrip]
  unfold hlWrap
  rw [matchAt_of_plain hs, hk]
  dsimp only [Option.map]
  have hql : q.length + k ≤ s.length := by
    have h2 := ciPre_length hci
    rw [List.length_drop] at h2
    omega
  have hL : lenM ⟨s.take k, (s.drop k).take q.length, s.drop (k + q.length), []⟩
      = s.length := by
    simp only [lenM]
    rw [List.length_take, List.length_take, List.length_drop, List.length_drop,
      List.length_nil]
    omega
  rw [hL, List.drop_length, wrapGo_nil]
  simp

/-- Witness for the amended C5: in `"cat cat"` the last occurrence is at
offset 4 and only it is wrapped. -/
theorem c5_amended_wraps_last_occurrence_witness :
    ((∀ c ∈ ("cat cat".toList : Str), plainC c = true) ∧
      ("cat".toList : Str) ≠ [] ∧
      lastOcc ("cat".toList) ("cat cat".toList) = some 4) ∧
    highlightText ("cat cat".toList) ("cat".toList) =
      ("cat cat".toList).take 4 ++ openT
        ++ (("cat cat".toList).drop 4).take ("cat".toList : Str).length ++ closeT
        ++ ("cat cat".toList).drop (4 + ("cat".toList : Str).length) :=
  ⟨⟨by decide, by decide, by decide⟩,
    c5_amended_wraps_last_occurrence _ _ (by decide) (by decide) 4 (by decide)⟩

/-! Section: Claim C6: highlighting is reversible -/

/-- C6: For every cell HTML with no pre-existing highlight-marker tags,
applying the default matched-cell highlight (`highlightText` with any
sequence of queries, i.e. any number of searches) and then the default
reset-cell strip (`highlightText` with the empty query, which only removes
mark tags) restores the cell's original HTML exactly. -/
theorem c6_highlight_reversible (html : Str) (qs : List Str)
    (h : tagFreeB html = true) :
    highlightText (qs.foldl highlightText html) [] = html := by
  have htf : TagFree html := tagFreeB_iff.mp h
  show stripMarks (qs.foldl highlightText html) = html
  have hgen : ∀ (l : List Str) (x : Str), stripMarks x = html →
      stripMarks (l.foldl highlightText x) = html := by
    intro l
    induction l with
    | nil => exact fun x hx => hx
    | cons a l ih =>
      intro x hx
      simp only [List.foldl_cons]
      exact ih _ (strip_highlightText htf a hx)
  exact hgen qs html (stripMarks_tagFree htf)

/-- Witness for C6: highlighting `"Catherine <b>cat</b>"` for `"cat"` and
then `"dog"`, and resetting, restores the original HTML. -/
theorem c6_highlight_reversible_witness :
    tagFreeB ("Catherine <b>cat</b>".toList) = true ∧
    highlightText
      ((["cat".toList, "dog".toList] : List Str).foldl highlightText
        ("Catherine <b>cat</b>".toList)) [] =
      ("Catherine <b>cat</b>".toList) :=
  ⟨by decide, c6_highlight_reversible _ _ (by decide)⟩

end TableSearch
